import Mathlib

/-!
Verification of the loki-logger-go shipping pipeline.

This development gives a shallow embedding of the core components of the
`loki-logger-go` repository and proves the specified properties about them:

* the token-bucket rate limiter (`internal/ratelimit/ratelimit.go`),
* the batching Loki transport (`transport/loki.go`, `internal/transport/loki.go`),
* the HTTP push client's retry loop and stream-key builder
  (`internal/client/client.go`),
* the label-cardinality tracker (`Logger.trackLabelCardinality` in `logger.go`),
* the JSON log-line data map built by `Client.formatLogLine`.

Modelling conventions:

* Go `float64` arithmetic in the rate limiter is modelled over `ℚ`; all the
  quantities appearing in the proved scenarios (small integers, sums and
  differences of integers) are exact in both `float64` and `ℚ`.
* Wall-clock time is modelled by passing the elapsed seconds since the last
  refill explicitly to `Allow`; the random draw of `rng.Float64()` is likewise
  an explicit argument in `[0,1)`.
* Go maps are modelled as association lists in insertion order with pairwise
  distinct keys; map reads are `find?` on the list.
* Network sends are modelled by an oracle function saying whether the i-th
  attempt fails (and with which error text).
* Go errors are modelled as the strings `fmt.Errorf` would build; `nil` errors
  are `Option.none`.
* Closing a Go channel panics when the channel is already closed; this is
  modelled by `closeChannel` returning `Except GoPanic`.
-/

namespace LokiLogger

/-! ## Rate limiter (`internal/ratelimit/ratelimit.go`) -/

/-- State of `ratelimit.RateLimiter`: the mutable fields guarded by its mutex.
`lastRefill` is modelled by passing elapsed time to `allowSome` explicitly;
`rng` is modelled by passing the drawn value explicitly. -/
structure RateLimiter where
  maxLogsPerSecond : ℚ
  samplingRatio : ℚ
  tokens : ℚ
  droppedCount : ℤ
  sampledCount : ℤ
  deriving DecidableEq

/-- Embeds `ratelimit.NewRateLimiter`.  A `nil` result (rate limiting
disabled, for `maxLogsPerSecond <= 0`) is `none`.  The sampling ratio is
clamped into `[0,1]` exactly as in the source. -/
def NewRateLimiter (maxLogsPerSecond : ℤ) (samplingRatio : ℚ) : Option RateLimiter :=
  if maxLogsPerSecond ≤ 0 then
    none
  else
    let r1 := if samplingRatio < 0 then 0 else samplingRatio
    let r2 := if r1 > 1 then 1 else r1
    some
      { maxLogsPerSecond := (maxLogsPerSecond : ℚ)
        samplingRatio := r2
        tokens := (maxLogsPerSecond : ℚ)
        droppedCount := 0
        sampledCount := 0 }

/-- Embeds the body of `RateLimiter.Allow` for a non-nil receiver.
`elapsed` is `now.Sub(rl.lastRefill).Seconds()`; `rand` is the value drawn by
`rl.rng.Float64()`.  Returns `((allowed, sampled), new state)`. -/
def RateLimiter.allowSome (rl : RateLimiter) (elapsed rand : ℚ) :
    (Bool × Bool) × RateLimiter :=
  let t1 := rl.tokens + elapsed * rl.maxLogsPerSecond
  let t2 := if t1 > rl.maxLogsPerSecond then rl.maxLogsPerSecond else t1
  if 1 ≤ t2 then
    ((true, false), { rl with tokens := t2 - 1 })
  else if 0 < rl.samplingRatio ∧ rand < rl.samplingRatio then
    ((true, true), { rl with tokens := t2, sampledCount := rl.sampledCount + 1 })
  else
    ((false, false), { rl with tokens := t2, droppedCount := rl.droppedCount + 1 })

/-- Embeds `RateLimiter.Allow` including the `rl == nil` (disabled) guard. -/
def Allow : Option RateLimiter → ℚ → ℚ → (Bool × Bool) × Option RateLimiter
  | none, _, _ => ((true, false), none)
  | some rl, elapsed, rand =>
      let r := rl.allowSome elapsed rand
      (r.1, some r.2)

/-- Embeds `RateLimiter.GetAndResetStats` including the `rl == nil` guard. -/
def GetAndResetStats : Option RateLimiter → (ℤ × ℤ) × Option RateLimiter
  | none => ((0, 0), none)
  | some rl =>
      ((rl.droppedCount, rl.sampledCount),
        some { rl with droppedCount := 0, sampledCount := 0 })

/-- Runs a sequence of `Allow` calls with zero elapsed time between them (the
claimed scenario of back-to-back calls), one per element of `rands` (the
random draw offered to each call), collecting results. -/
def runZeroAllow : RateLimiter → List ℚ → List (Bool × Bool) × RateLimiter
  | rl, [] => ([], rl)
  | rl, r :: rs =>
      let step := rl.allowSome 0 r
      let rest := runZeroAllow step.2 rs
      (step.1 :: rest.1, rest.2)

/-! ## Batching Loki transport (`transport/loki.go`, `internal/transport/loki.go`)

Both copies of `LokiTransport` share the same `Write`/`Flush` buffer logic; the
model below covers both.  `push` is an oracle for `client.Push` on the swapped
out batch: `none` means success, `some e` a failed push with error text `e`.
The third component records the batch handed to the push client, if any. -/

/-- Mutex-guarded state of `LokiTransport` relevant to buffering. -/
structure LokiTransport (α : Type) where
  buffer : List α
  batchSize : ℤ

/-- Embeds `NewLokiTransport`'s buffer initialisation: an empty buffer. -/
def NewLokiTransport (α : Type) (batchSize : ℤ) : LokiTransport α :=
  { buffer := [], batchSize := batchSize }

/-- Embeds `LokiTransport.Flush`: empty buffer is a no-op success; otherwise
the buffer is swapped for an empty one and the swapped-out batch is pushed.
Returns `(error, new state, batch handed to the push client)`. -/
def Flush (push : List α → Option String) (lt : LokiTransport α) :
    Option String × LokiTransport α × Option (List α) :=
  if lt.buffer.length = 0 then
    (none, lt, none)
  else
    let toSend := lt.buffer
    let lt' := { lt with buffer := ([] : List α) }
    match push toSend with
    | some e => (some ("failed to push to Loki: " ++ e), lt', some toSend)
    | none => (none, lt', some toSend)

/-- Embeds `LokiTransport.Write`: append the entries, then flush when the
buffer has reached the batch size. -/
def Write (push : List α → Option String) (lt : LokiTransport α) (entries : List α) :
    Option String × LokiTransport α × Option (List α) :=
  let lt1 := { lt with buffer := lt.buffer ++ entries }
  if lt1.batchSize ≤ (lt1.buffer.length : ℤ) then Flush push lt1
  else (none, lt1, none)

/-- Performs one `Write` call per record (the claimed scenario), collecting
every batch handed to the push client along the way. -/
def runWrites (push : List α → Option String) :
    LokiTransport α → List α → LokiTransport α × List (List α)
  | lt, [] => (lt, [])
  | lt, e :: es =>
      let step := Write push lt [e]
      let rest := runWrites push step.2.1 es
      (rest.1, step.2.2.toList ++ rest.2)

/-! ## Channel close and `LokiTransport.Close` -/

/-- A Go channel, as far as `close` is concerned: whether it has been closed. -/
structure GoChannel where
  closed : Bool
  deriving DecidableEq

/-- Go run-time panics that can arise in the modelled code. -/
inductive GoPanic where
  | closeOfClosedChannel
  deriving DecidableEq

/-- Closing a Go channel: panics (run-time `close of closed channel`) when the
channel is already closed. -/
def closeChannel (c : GoChannel) : Except GoPanic GoChannel :=
  if c.closed then Except.error GoPanic.closeOfClosedChannel
  else Except.ok { closed := true }

/-- The channel state of a `LokiTransport` that `Close` touches. -/
structure LokiTransportChannels where
  stopCh : GoChannel
  deriving DecidableEq

/-- Channel state as set up by `NewLokiTransport`: `stopCh` freshly made. -/
def NewLokiTransportChannels : LokiTransportChannels :=
  { stopCh := { closed := false } }

/-- Result of a `Close` call that did not panic. -/
inductive CloseResult where
  | ok
  | timeoutErr
  deriving DecidableEq

/-- Embeds `LokiTransport.Close`: unconditionally `close(lt.stopCh)` (panicking
if already closed), then wait on `doneCh` against the shutdown timer.
`flusherDoneInTime` says which of the two `select` cases fires: whether the
background flusher signalled `doneCh` before the timeout. -/
def Close (lt : LokiTransportChannels) (flusherDoneInTime : Bool) :
    Except GoPanic (CloseResult × LokiTransportChannels) := do
  let stop' ← closeChannel lt.stopCh
  let lt' : LokiTransportChannels := { stopCh := stop' }
  if flusherDoneInTime then
    Except.ok (CloseResult.ok, lt')
  else
    Except.ok (CloseResult.timeoutErr, lt')

/-! ## HTTP push client retry loop (`Client.sendWithRetry`) -/

/-- Renders the error wrapped by `%w`; the retrying code only ever wraps an
error produced by a failed attempt, so the `none` case is unreachable in the
proved properties. -/
def errText : Option String → String
  | some s => s
  | none => "<nil>"

/-- Embeds the `for attempt := 0; attempt <= maxRetries; attempt++` loop of
`Client.sendWithRetry`.  `remaining` counts the loop iterations still allowed,
maintaining `remaining + attempt = maxRetries + 1`, so the loop guard
`attempt <= maxRetries` is exactly `remaining > 0`.  `send attempt` is the
outcome of `c.send` on that attempt (`none` is success).  Returns the call's
result together with the total number of send attempts performed (the final
value of `attempt` after the last attempt).  Context cancellation during the
backoff wait is not modelled: the claims assume an uncancelled context. -/
def retryLoop (send : ℕ → Option String) (maxRetries : ℕ) :
    ℕ → ℕ → Option String → Except String Unit × ℕ
  | 0, attempt, lastErr =>
      (Except.error
        ("failed after " ++ toString maxRetries ++ " retries: " ++ errText lastErr),
        attempt)
  | remaining + 1, attempt, _ =>
      match send attempt with
      | none => (Except.ok (), attempt + 1)
      | some e => retryLoop send maxRetries remaining (attempt + 1) (some e)

/-- Embeds `Client.sendWithRetry`: start at attempt 0 with no previous error
and at most `maxRetries + 1` iterations. -/
def sendWithRetry (maxRetries : ℕ) (send : ℕ → Option String) :
    Except String Unit × ℕ :=
  retryLoop send maxRetries (maxRetries + 1) 0 none

/-- Embeds `Client.Push`: empty input returns `nil` immediately, before any
payload construction or send; otherwise the payload is built (`buildPayload`
may fail, in which case no send happens) and handed to `sendWithRetry`.
The second component is the number of HTTP requests issued. -/
def Push (maxRetries : ℕ) (send : ℕ → Option String)
    (buildPayload : List β → Except String String) (entries : List β) :
    Except String Unit × ℕ :=
  if entries.length = 0 then
    (Except.ok (), 0)
  else
    match buildPayload entries with
    | Except.error e => (Except.error ("failed to build payload: " ++ e), 0)
    | Except.ok _ => sendWithRetry maxRetries send

/-! ## Stream key builder (`Client.labelsToKey`)

A Go `map[string]string` is modelled as an association list in insertion order
whose keys are pairwise distinct; a map read `labels[k]` is `lookupLabel`.
Go map iteration order is unspecified, but `labelsToKey` only iterates to
collect the key set before sorting, so any insertion-order listing of the map
is a faithful input; the permutation invariance proved below is exactly the
claim that the result does not depend on that order. -/

/-- Executable lexicographic comparison on character lists, deciding the
`≤` of the lexicographic order (`sort.Strings` orders strings this way). -/
def charListLeB : List Char → List Char → Bool
  | [], _ => true
  | _ :: _, [] => false
  | a :: as, b :: bs => if a < b then true else if b < a then false else charListLeB as bs

/-- Executable string comparison; `strLeB_iff` below proves it decides `≤`
(equivalently the order used by `sort.Strings`). -/
def strLeB (a b : String) : Bool := charListLeB a.data b.data

/-- Go map read `labels[k]` (zero value `""` when absent). -/
def lookupLabel (labels : List (String × String)) (k : String) : String :=
  ((labels.find? (fun p => p.1 == k)).map Prod.snd).getD ""

/-- The string-building loop of `labelsToKey`: for each key in order, append
`key`, `"="`, `labels[key]`, `";"` to the buffer. -/
def encodeSorted (labels : List (String × String)) : List String → String
  | [] => ""
  | k :: ks => k ++ "=" ++ lookupLabel labels k ++ ";" ++ encodeSorted labels ks

/-- Embeds `Client.labelsToKey` (the sorted variant at
`internal/client/client.go`): empty map gives `""`; otherwise collect the
keys, sort them (`sort.Strings` is lexicographic, as is `≤` on `String`), and
concatenate `key=value;` for each key in sorted order. -/
def labelsToKey (labels : List (String × String)) : String :=
  if labels.length = 0 then ""
  else
    let keys := labels.map Prod.fst
    let sortedKeys := List.insertionSort (fun a b => strLeB a b = true) keys
    encodeSorted labels sortedKeys

/-- A label pair is separator-free when its key contains neither `=` nor `;`
and its value contains no `;` — the characters `labelsToKey` uses as
delimiters.  The injectivity of the stream key holds exactly on such pairs. -/
def cleanPair (p : String × String) : Prop :=
  (';' ∉ p.1.data) ∧ ('=' ∉ p.1.data) ∧ (';' ∉ p.2.data)

instance (p : String × String) : Decidable (cleanPair p) := by
  unfold cleanPair
  infer_instance

/-- Character-level reading of one `key=value;` item of the stream key. -/
def encodePair (p : String × String) : List Char :=
  p.1.data ++ '=' :: (p.2.data ++ [';'])

/-- Character-level reading of the whole stream key for a given pair order. -/
def encodeList : List (String × String) → List Char
  | [] => []
  | p :: ps => encodePair p ++ encodeList ps

/-- The key/value pairs of the map in sorted-key order — the pairs whose items
`labelsToKey` concatenates. -/
def sortedPairs (labels : List (String × String)) : List (String × String) :=
  (List.insertionSort (fun a b => strLeB a b = true) (labels.map Prod.fst)).map
    (fun k => (k, lookupLabel labels k))

/-! ## Cardinality tracker (`Logger.trackLabelCardinality`) -/

/-- `labelCardinalityMap`: label key mapped to the set of values seen, the set
being an association-list-backed Go `map[string]struct\x7b\x7d` modelled as the
list of its members in insertion order (inserting an existing member is a
no-op, so the list stays duplicate-free). -/
abbrev CardinalityMap := List (String × List String)

/-- Go map read `m[k]` for the cardinality map (`nil`, i.e. empty, if absent). -/
def lookupVals (m : CardinalityMap) (k : String) : List String :=
  ((m.find? (fun p => p.1 == k)).map Prod.snd).getD []

/-- Go map write `m[k] = vs`: overwrite in place or append a fresh entry. -/
def storeVals : CardinalityMap → String → List String → CardinalityMap
  | [], k, vs => [(k, vs)]
  | (k', vs') :: m, k, vs =>
      if k' == k then (k, vs) :: m else (k', vs') :: storeVals m k vs

/-- Embeds `Logger.trackLabelCardinality` with threshold
`maxCard = l.config.MaxLabelCardinality`: skip when the threshold is `≤ 0`;
insert the value into the key's set; warn with
`(labelKey, uniqueCount, maxCard)` when the new size exceeds the threshold and
equals `threshold + 1`.  The warning callback is modelled by returning the
arguments it is invoked with (`none` when it is not invoked). -/
def trackLabelCardinality (maxCard : ℤ) (m : CardinalityMap) (labelKey labelValue : String) :
    CardinalityMap × Option (String × ℕ × ℤ) :=
  if maxCard ≤ 0 then (m, none)
  else
    let vals := lookupVals m labelKey
    let vals' := if labelValue ∈ vals then vals else vals ++ [labelValue]
    let m' := storeVals m labelKey vals'
    let uniqueCount := vals'.length
    if maxCard < (uniqueCount : ℤ) ∧ (uniqueCount : ℤ) = maxCard + 1 then
      (m', some (labelKey, uniqueCount, maxCard))
    else
      (m', none)

/-- Runs a sequence of `trackLabelCardinality` calls, collecting every warning
callback invocation in order. -/
def runTrack (maxCard : ℤ) : CardinalityMap → List (String × String) →
    CardinalityMap × List (String × ℕ × ℤ)
  | m, [] => (m, [])
  | m, (k, v) :: calls =>
      let step := trackLabelCardinality maxCard m k v
      let rest := runTrack maxCard step.1 calls
      (rest.1, step.2.toList ++ rest.2)

/-! ## Log line data map (`Client.formatLogLine`) -/

/-- Log severity (`models.Level` / the string levels of the old client). -/
inductive Level where
  | debug
  | info
  | warn
  | error
  | fatal
  deriving DecidableEq

/-- Embeds `Level.String()`. -/
def Level.toGoString : Level → String
  | Level.debug => "debug"
  | Level.info => "info"
  | Level.warn => "warn"
  | Level.error => "error"
  | Level.fatal => "fatal"

/-- A JSON-encodable value put into the log-line map: either one of the
strings the formatter itself inserts, or an arbitrary caller-supplied field
value of type `α` (Go `any`). -/
abbrev LineValue (α : Type) := String ⊕ α

/-- The parts of a `types.Entry` that `formatLogLine` reads.  `Fields` is an
insertion-order listing of the Go map with pairwise distinct keys. -/
structure Entry (α : Type) where
  level : Level
  message : String
  fields : List (String × α)

/-- Go map write `data[k] = v` for the log-line map. -/
def mapStore : List (String × β) → String → β → List (String × β)
  | [], k, v => [(k, v)]
  | (k', v') :: m, k, v =>
      if k' == k then (k, v) :: m else (k', v') :: mapStore m k v

/-- Go map read `data[k]` for the log-line map. -/
def mapRead (m : List (String × β)) (k : String) : Option β :=
  (m.find? (fun p => p.1 == k)).map Prod.snd

/-- Embeds the map construction of `Client.formatLogLine`: start from an empty
map, set `data["level"]` and `data["message"]`, then `maps.Copy(data, fields)`
(one overwriting store per field; the old client's explicit range loop does the
same stores).  The JSON encoder then serialises exactly this map, so the claim
about the serialised line is settled on the map. -/
def formatLogLineData (entry : Entry α) : List (String × LineValue α) :=
  let d0 : List (String × LineValue α) := []
  let d1 := mapStore d0 "level" (Sum.inl entry.level.toGoString)
  let d2 := mapStore d1 "message" (Sum.inl entry.message)
  entry.fields.foldl (fun d kv => mapStore d kv.1 (Sum.inr kv.2)) d2

/-! ## Infrastructure lemmas: the string comparison decides `≤` -/

theorem charListLeB_iff_not_lex : ∀ a b : List Char,
    charListLeB a b = true ↔ ¬ List.Lex (· < ·) b a
  | [], b => by
      simp [charListLeB]
  | x :: xs, [] => by
      simp [charListLeB]
      exact List.Lex.nil
  | x :: xs, y :: ys => by
      rcases lt_trichotomy x y with h | h | h
      · simp only [charListLeB, if_pos h, true_iff]
        intro hl
        cases hl with
        | cons hl' => exact lt_irrefl x h
        | rel hr => exact lt_asymm h hr
      · subst h
        simp only [charListLeB, if_neg (lt_irrefl x), List.Lex.cons_iff]
        exact charListLeB_iff_not_lex xs ys
      · simp only [charListLeB, if_neg (lt_asymm h), if_pos h, Bool.false_eq_true,
          false_iff, not_not]
        exact List.Lex.rel h

theorem strLeB_iff (a b : String) : strLeB a b = true ↔ a ≤ b := by
  rw [String.le_iff_toList_le]
  rw [← not_lt]
  exact charListLeB_iff_not_lex a.data b.data

instance : IsTotal String (fun a b => strLeB a b = true) where
  total a b := by
    rw [strLeB_iff, strLeB_iff]
    exact le_total a b

instance : IsTrans String (fun a b => strLeB a b = true) where
  trans a b c hab hbc := by
    rw [strLeB_iff] at hab hbc ⊢
    exact le_trans hab hbc

instance : IsAntisymm String (fun a b => strLeB a b = true) where
  antisymm a b hab hba := by
    rw [strLeB_iff] at hab hba
    exact le_antisymm hab hba

/-! ## Claim C1: double Close -/

/-- C1, counterexample.  The claim says a second sequential `Close()` on a
shipping transport returns (success or timeout error) without panicking.  On
the code it does not: `Close` runs `close(lt.stopCh)` unconditionally, and the
second call closes an already-closed channel, which panics.  Concretely, on a
fresh transport whose background flusher finishes in time, `Close` followed by
`Close` ends in the `close of closed channel` run-time panic. -/
theorem close_close_panics :
    (do
      let r ← Close NewLokiTransportChannels true
      Close r.2 true) = Except.error GoPanic.closeOfClosedChannel := rfl

/-- C1, amended.  Calling `Close()` once does not panic and returns success or
a timeout error according to whether the background flusher finishes within
the shutdown timeout; a second sequential call panics by closing the
already-closed stop channel (it does not return at all). -/
theorem close_once_ok_twice_panics (b1 b2 : Bool) :
    Close NewLokiTransportChannels b1 =
      Except.ok ((if b1 then CloseResult.ok else CloseResult.timeoutErr),
        { stopCh := { closed := true } }) ∧
    Close { stopCh := { closed := true } } b2 =
      Except.error GoPanic.closeOfClosedChannel := by
  cases b1 <;> cases b2 <;> exact ⟨rfl, rfl⟩

/-! ## Claim C5: disabled rate limiter -/

/-- C5.  With configured capacity ≤ 0 the constructor returns the disabled
(nil) limiter; every `Allow` call on it returns `(true, false)` and leaves it
nil, and `GetAndResetStats` returns `(0, 0)`. -/
theorem rateLimiter_disabled (n : ℤ) (hn : n ≤ 0) (ratio : ℚ) :
    NewRateLimiter n ratio = none ∧
    (∀ elapsed rand : ℚ,
      Allow (NewRateLimiter n ratio) elapsed rand = ((true, false), none)) ∧
    GetAndResetStats (NewRateLimiter n ratio) = ((0, 0), none) := by
  have h : NewRateLimiter n ratio = none := by
    simp [NewRateLimiter, hn]
  refine ⟨h, fun elapsed rand => ?_, ?_⟩
  · rw [h]; rfl
  · rw [h]; rfl

/-- C5, witness at capacity 0 and sampling ratio 1/2, elapsed 1, draw 0. -/
theorem rateLimiter_disabled_witness :
    NewRateLimiter 0 (1/2) = none ∧
    Allow (NewRateLimiter 0 (1/2)) 1 0 = ((true, false), none) ∧
    GetAndResetStats (NewRateLimiter 0 (1/2)) = ((0, 0), none) :=
  ⟨(rateLimiter_disabled 0 (by norm_num) (1/2)).1,
    (rateLimiter_disabled 0 (by norm_num) (1/2)).2.1 1 0,
    (rateLimiter_disabled 0 (by norm_num) (1/2)).2.2⟩

/-! ## Claim C6: cardinality tracker warn-once -/

/-- C6.  The claim (and the comment in `trackLabelCardinality` itself) says the
warning callback fires exactly once, when the distinct-value count first
reaches threshold + 1, and never again.  The code re-fires it: with threshold 1
and the call sequence k:a, k:b, k:b the third call re-tracks the already-seen
value "b", the set size stays 2 = threshold + 1, and the guard
`uniqueCount == MaxLabelCardinality + 1` passes again, so the callback is
invoked twice with the same arguments. -/
theorem cardinality_warns_twice :
    (runTrack 1 [] [("k", "a"), ("k", "b"), ("k", "b")]).2 =
      [("k", 2, 1), ("k", 2, 1)] := by decide

/-! ## Claim C8: empty flush and empty push are no-ops -/

/-- C8.  Flushing a transport whose buffer is empty returns success, performs
no push and leaves the state unchanged; pushing an empty record list returns
success with zero HTTP requests issued (regardless of the retry budget, the
send outcomes and the payload builder). -/
theorem flush_empty_push_empty_noop {α β : Type} (push : List α → Option String)
    (lt : LokiTransport α) (h : lt.buffer = [])
    (maxRetries : ℕ) (send : ℕ → Option String)
    (buildPayload : List β → Except String String) :
    Flush push lt = (none, lt, none) ∧
    Push maxRetries send buildPayload ([] : List β) = (Except.ok (), 0) := by
  constructor
  · simp [Flush, h]
  · rfl

/-- C8, witness: a concrete empty-buffer transport and a concrete empty push. -/
theorem flush_empty_push_empty_noop_witness :
    Flush (fun _ => none) (NewLokiTransport ℕ 5) = (none, NewLokiTransport ℕ 5, none) ∧
    Push 3 (fun _ => some "send failed") (fun _ => Except.ok "payload")
      ([] : List ℕ) = (Except.ok (), 0) :=
  flush_empty_push_empty_noop (fun _ => none) (NewLokiTransport ℕ 5) rfl 3
    (fun _ => some "send failed") (fun _ => Except.ok "payload")

/-! ## Claim C9: retry loop -/

theorem retryLoop_all_fail (send : ℕ → Option String) (maxRetries : ℕ) (eLast : String)
    (hLast : send maxRetries = some eLast) :
    ∀ (remaining : ℕ), ∀ (attempt : ℕ) (lastErr : Option String),
      remaining + attempt = maxRetries + 1 → 1 ≤ remaining →
      (∀ i, attempt ≤ i → i ≤ maxRetries → (send i).isSome) →
      retryLoop send maxRetries remaining attempt lastErr =
        (Except.error ("failed after " ++ toString maxRetries ++ " retries: " ++ eLast),
          maxRetries + 1) := by
  intro remaining
  induction remaining with
  | zero => intro _ _ _ hr; omega
  | succ r ih =>
    intro attempt lastErr hsum _ hfail
    have hatt : attempt ≤ maxRetries := by omega
    obtain ⟨e, he⟩ := Option.isSome_iff_exists.mp (hfail attempt le_rfl hatt)
    by_cases hr : 1 ≤ r
    · simp only [retryLoop, he]
      exact ih (attempt + 1) (some e) (by omega) hr (fun i hi1 hi2 => hfail i (by omega) hi2)
    · have hr0 : r = 0 := by omega
      subst hr0
      have hattm : attempt = maxRetries := by omega
      subst hattm
      rw [hLast] at he
      cases he
      simp only [retryLoop, hLast, errText]

theorem retryLoop_success (send : ℕ → Option String) (maxRetries k : ℕ)
    (hk : k ≤ maxRetries) (hsucc : send k = none) :
    ∀ (remaining : ℕ), ∀ (attempt : ℕ) (lastErr : Option String),
      remaining + attempt = maxRetries + 1 → attempt ≤ k →
      (∀ i, attempt ≤ i → i < k → (send i).isSome) →
      retryLoop send maxRetries remaining attempt lastErr = (Except.ok (), k + 1) := by
  intro remaining
  induction remaining with
  | zero => intro _ _ hsum hle _; omega
  | succ r ih =>
    intro attempt lastErr hsum hle hfail
    by_cases hak : attempt = k
    · subst hak
      simp only [retryLoop, hsucc]
    · have hlt : attempt < k := lt_of_le_of_ne hle hak
      obtain ⟨e, he⟩ := Option.isSome_iff_exists.mp (hfail attempt le_rfl hlt)
      simp only [retryLoop, he]
      exact ih (attempt + 1) (some e) (by omega) hlt (fun i hi1 hi2 => hfail i (by omega) hi2)

/-- C9.  For any retry budget: if every one of the `maxRetries + 1` permitted
attempts fails, `sendWithRetry` performs exactly `maxRetries + 1` send attempts
and returns the error `failed after <maxRetries> retries: <last failure>`,
which names the retry count and wraps the final attempt's failure; if some
attempt `k` succeeds after `k` failures, exactly `k + 1` attempts are made and
the call returns success. -/
theorem sendWithRetry_spec (maxRetries : ℕ) (send : ℕ → Option String) :
    (∀ eLast, send maxRetries = some eLast →
      (∀ i, i ≤ maxRetries → (send i).isSome) →
      sendWithRetry maxRetries send =
        (Except.error ("failed after " ++ toString maxRetries ++ " retries: " ++ eLast),
          maxRetries + 1)) ∧
    (∀ k, k ≤ maxRetries → send k = none → (∀ i, i < k → (send i).isSome) →
      sendWithRetry maxRetries send = (Except.ok (), k + 1)) := by
  constructor
  · intro eLast hLast hfail
    exact retryLoop_all_fail send maxRetries eLast hLast (maxRetries + 1) 0 none
      (by omega) (by omega) (fun i _ hi2 => hfail i hi2)
  · intro k hk hsucc hfail
    exact retryLoop_success send maxRetries k hk hsucc (maxRetries + 1) 0 none
      (by omega) (Nat.zero_le k) (fun i _ hi2 => hfail i hi2)

/-- C9, witness: with `maxRetries = 1`, a send that always fails makes 2
attempts and reports `failed after 1 retries` wrapping the last failure, and a
send that fails once then succeeds makes 2 attempts and returns success. -/
theorem sendWithRetry_spec_witness :
    sendWithRetry 1 (fun _ => some "boom") =
      (Except.error "failed after 1 retries: boom", 2) ∧
    sendWithRetry 1 (fun i => if i = 0 then some "early" else none) =
      (Except.ok (), 2) := by
  constructor
  · exact (sendWithRetry_spec 1 (fun _ => some "boom")).1 "boom" rfl (fun i _ => rfl)
  · exact (sendWithRetry_spec 1 (fun i => if i = 0 then some "early" else none)).2 1
      le_rfl rfl (fun i hi => by interval_cases i; rfl)

/-! ## Claim C7: batch-size flush boundary -/

theorem runWrites_no_flush {α : Type} (push : List α → Option String) :
    ∀ (es : List α) (lt : LokiTransport α),
      ((lt.buffer.length : ℤ) + es.length < lt.batchSize) →
      runWrites push lt es = ({ lt with buffer := lt.buffer ++ es }, []) := by
  intro es
  induction es with
  | nil =>
    intro lt _
    simp [runWrites]
  | cons e es ih =>
    intro lt h
    have hlen : (e :: es).length = es.length + 1 := List.length_cons e es
    have hnof : ¬ (lt.batchSize ≤ ((lt.buffer ++ [e]).length : ℤ)) := by
      simp only [List.length_append, List.length_cons, List.length_singleton,
        List.length_nil] at h ⊢
      push_cast at h ⊢
      omega
    simp only [runWrites, Write, if_neg hnof]
    rw [ih { lt with buffer := lt.buffer ++ [e] }
      (by
        simp only [List.length_append, List.length_cons, List.length_singleton,
          List.length_nil] at h ⊢
        push_cast at h ⊢
        omega)]
    simp

theorem runWrites_exact {α : Type} (push : List α → Option String) :
    ∀ (es : List α) (lt : LokiTransport α), es ≠ [] →
      ((lt.buffer.length : ℤ) + es.length = lt.batchSize) →
      runWrites push lt es = ({ lt with buffer := [] }, [lt.buffer ++ es]) := by
  intro es
  induction es with
  | nil => intro _ hne _; exact absurd rfl hne
  | cons e es ih =>
    intro lt _ h
    by_cases hes : es = []
    · subst hes
      have hfull : lt.batchSize ≤ ((lt.buffer ++ [e]).length : ℤ) := by
        simp only [List.length_append, List.length_cons, List.length_singleton,
          List.length_nil] at h ⊢
        push_cast at h ⊢
        omega
      have hne0 : ¬ ((lt.buffer ++ [e]).length = 0) := by
        simp
      simp only [runWrites, Write, if_pos hfull, Flush, if_neg hne0]
      cases push (lt.buffer ++ [e]) <;> simp [runWrites]
    · have hlp : 1 ≤ es.length := List.length_pos.mpr hes
      have hnof : ¬ (lt.batchSize ≤ ((lt.buffer ++ [e]).length : ℤ)) := by
        simp only [List.length_append, List.length_cons, List.length_singleton,
          List.length_nil] at h ⊢
        push_cast at h ⊢
        omega
      simp only [runWrites, Write, if_neg hnof]
      rw [ih { lt with buffer := lt.buffer ++ [e] } hes
        (by
          simp only [List.length_append, List.length_cons, List.length_singleton,
            List.length_nil] at h ⊢
          push_cast at h ⊢
          omega)]
      simp

/-- C7.  Starting from an empty buffer with batch size `B ≥ 1`: writing exactly
`B` records (one `Write` call per record) hands exactly one batch — all `B`
records — to the push client and leaves the buffer empty, while writing
`B - 1` records hands nothing to the push client and leaves all `B - 1`
records buffered.  Holds for every outcome of the underlying push. -/
theorem batch_flush_boundary {α : Type} (push : List α → Option String) (B : ℤ)
    (hB : 1 ≤ B) (es1 es2 : List α)
    (h1 : (es1.length : ℤ) = B) (h2 : (es2.length : ℤ) = B - 1) :
    runWrites push (NewLokiTransport α B) es1 = (NewLokiTransport α B, [es1]) ∧
    runWrites push (NewLokiTransport α B) es2 =
      ({ buffer := es2, batchSize := B }, []) := by
  constructor
  · have hne : es1 ≠ [] := by
      intro hnil
      rw [hnil] at h1
      simp at h1
      omega
    have := runWrites_exact push es1 (NewLokiTransport α B) hne
      (by simp [NewLokiTransport, h1])
    simpa [NewLokiTransport] using this
  · have := runWrites_no_flush push es2 (NewLokiTransport α B)
      (by simp [NewLokiTransport, h2])
    simpa [NewLokiTransport] using this

/-- C7, witness at batch size 2: two single-record writes flush once and empty
the buffer; one write flushes nothing and leaves the record buffered. -/
theorem batch_flush_boundary_witness :
    runWrites (fun _ => none) (NewLokiTransport ℕ 2) [10, 20] =
      (NewLokiTransport ℕ 2, [[10, 20]]) ∧
    runWrites (fun _ => none) (NewLokiTransport ℕ 2) [10] =
      ({ buffer := [10], batchSize := 2 }, []) :=
  batch_flush_boundary (fun _ => none) 2 (by norm_num) [10, 20] [10] (by norm_num)
    (by norm_num)

/-! ## Claim C4: token bucket admits capacity-many calls -/

theorem runZeroAllow_all_admit :
    ∀ (rands : List ℚ) (rl : RateLimiter),
      ((rands.length : ℚ) ≤ rl.tokens) → rl.tokens ≤ rl.maxLogsPerSecond →
      runZeroAllow rl rands =
        (rands.map (fun _ => (true, false)),
          { rl with tokens := rl.tokens - rands.length }) := by
  intro rands
  induction rands with
  | nil =>
    intro rl _ _
    simp [runZeroAllow]
  | cons r rs ih =>
    intro rl hlen hcap
    have hlen' : ((rs.length : ℚ) + 1) ≤ rl.tokens := by
      rw [List.length_cons] at hlen
      push_cast at hlen
      linarith
    have hlen1 : (1 : ℚ) ≤ rl.tokens := by
      have h0 : (0 : ℚ) ≤ (rs.length : ℚ) := Nat.cast_nonneg _
      linarith
    have hstep : rl.allowSome 0 r = ((true, false), { rl with tokens := rl.tokens - 1 }) := by
      simp only [RateLimiter.allowSome, zero_mul, add_zero]
      rw [if_neg (not_lt.mpr hcap), if_pos hlen1]
    simp only [runZeroAllow, hstep]
    rw [ih { rl with tokens := rl.tokens - 1 } (by simpa using by linarith) (by simp; linarith)]
    simp only [List.map_cons, List.length_cons]
    refine Prod.ext rfl ?_
    congr 1
    push_cast
    ring_nf

/-- C4.  Construct a limiter with capacity `N > 0`; the first `Allow` call sees
exactly 1 second of elapsed time (refilling `elapsed × rate` tokens, capped at
capacity `N`), and the following `N - 1` calls see zero elapsed time.  All `N`
calls return `(allowed, sampled) = (true, false)`, each consuming exactly one
token, whatever values the sampler draws; the very next call (still zero
elapsed time) finds no token and returns `allowed = sampled` — either a
sampled admission or a drop, never a plain admission. -/
theorem rateLimiter_token_bucket (N : ℤ) (hN : 0 < N) (ratio r0 rand : ℚ)
    (rands : List ℚ) (hlen : (rands.length : ℤ) = N - 1)
    (rl0 : RateLimiter) (hmk : NewRateLimiter N ratio = some rl0) :
    (rl0.allowSome 1 r0).1 = (true, false) ∧
    (runZeroAllow (rl0.allowSome 1 r0).2 rands).1 =
      rands.map (fun _ => (true, false)) ∧
    ((runZeroAllow (rl0.allowSome 1 r0).2 rands).2.allowSome 0 rand).1.1 =
      ((runZeroAllow (rl0.allowSome 1 r0).2 rands).2.allowSome 0 rand).1.2 := by
  rw [NewRateLimiter, if_neg (not_le.mpr hN)] at hmk
  obtain rfl := (Option.some.inj hmk).symm
  have hNQ : (0 : ℚ) < (N : ℚ) := by exact_mod_cast hN
  have hN1 : (1 : ℚ) ≤ (N : ℚ) := by exact_mod_cast hN
  have hlenQ : ((rands.length : ℚ)) = (N : ℚ) - 1 := by exact_mod_cast hlen
  have hstep1 :
      RateLimiter.allowSome
        { maxLogsPerSecond := (N : ℚ)
          samplingRatio := if (if ratio < 0 then 0 else ratio) > 1 then 1
            else (if ratio < 0 then 0 else ratio)
          tokens := (N : ℚ)
          droppedCount := 0
          sampledCount := 0 } 1 r0 =
      ((true, false),
        { maxLogsPerSecond := (N : ℚ)
          samplingRatio := if (if ratio < 0 then 0 else ratio) > 1 then 1
            else (if ratio < 0 then 0 else ratio)
          tokens := (N : ℚ) - 1
          droppedCount := 0
          sampledCount := 0 }) := by
    simp only [RateLimiter.allowSome, one_mul]
    rw [if_pos (show (N : ℚ) < (N : ℚ) + (N : ℚ) by linarith)]
    rw [if_pos hN1]
  rw [hstep1]
  have hrun := runZeroAllow_all_admit rands
    { maxLogsPerSecond := (N : ℚ)
      samplingRatio := if (if ratio < 0 then 0 else ratio) > 1 then 1
        else (if ratio < 0 then 0 else ratio)
      tokens := (N : ℚ) - 1
      droppedCount := 0
      sampledCount := 0 }
    (by rw [hlenQ]) (by simp)
  rw [hrun]
  refine ⟨rfl, rfl, ?_⟩
  have htok : (N : ℚ) - 1 - (rands.length : ℚ) = 0 := by
    rw [hlenQ]; ring
  simp only [RateLimiter.allowSome, zero_mul, add_zero, htok]
  rw [if_neg (show ¬ ((N : ℚ) < 0) from not_lt.mpr hNQ.le)]
  rw [if_neg (show ¬ ((1 : ℚ) ≤ 0) by norm_num)]
  by_cases hc : 0 < (if (if ratio < 0 then 0 else ratio) > 1 then 1
      else (if ratio < 0 then 0 else ratio) : ℚ) ∧
      rand < (if (if ratio < 0 then 0 else ratio) > 1 then 1
        else (if ratio < 0 then 0 else ratio) : ℚ)
  · rw [if_pos hc]
  · rw [if_neg hc]

/-- C4, witness: capacity 2, sampling ratio 1/2; the first call, made after
the 1-second refill, plainly admits. -/
theorem rateLimiter_token_bucket_witness :
    (RateLimiter.allowSome
      { maxLogsPerSecond := 2, samplingRatio := 1/2, tokens := 2,
        droppedCount := 0, sampledCount := 0 } 1 0).1 = (true, false) :=
  (rateLimiter_token_bucket 2 (by norm_num) (1/2) 0 0 [0] (by norm_num)
    { maxLogsPerSecond := 2, samplingRatio := 1/2, tokens := 2,
      droppedCount := 0, sampledCount := 0 } (by norm_num [NewRateLimiter])).1

/-! ## Claim C10: custom fields overwrite the reserved keys -/

theorem mapRead_mapStore_self {β : Type} :
    ∀ (m : List (String × β)) (k : String) (v : β),
      mapRead (mapStore m k v) k = some v := by
  intro m
  induction m with
  | nil =>
    intro k v
    simp [mapStore, mapRead]
  | cons p m ih =>
    intro k v
    obtain ⟨k0, v0⟩ := p
    simp only [mapStore]
    by_cases h : k0 = k
    · subst h
      simp [mapRead]
    · rw [if_neg (by simpa using h)]
      simp only [mapRead]
      rw [List.find?_cons_of_neg _ (by simpa using h)]
      exact ih k v

theorem mapRead_mapStore_ne {β : Type} :
    ∀ (m : List (String × β)) (k' k : String) (v : β), k' ≠ k →
      mapRead (mapStore m k' v) k = mapRead m k := by
  intro m
  induction m with
  | nil =>
    intro k' k v h
    simp only [mapStore, mapRead]
    rw [List.find?_cons_of_neg _ (by simpa using h)]
  | cons p m ih =>
    intro k' k v h
    obtain ⟨k0, v0⟩ := p
    simp only [mapStore]
    by_cases h0 : k0 = k'
    · subst h0
      rw [if_pos (by simp)]
      simp only [mapRead]
      rw [List.find?_cons_of_neg _ (by simpa using h),
        List.find?_cons_of_neg _ (by simpa using h)]
    · rw [if_neg (by simpa using h0)]
      simp only [mapRead]
      by_cases hk : k0 = k
      · subst hk
        rw [List.find?_cons_of_pos _ (by simp), List.find?_cons_of_pos _ (by simp)]
      · rw [List.find?_cons_of_neg _ (by simpa using hk),
          List.find?_cons_of_neg _ (by simpa using hk)]
        exact ih k' k v h

theorem mapRead_foldStore_not_mem {α β : Type} (g : α → β) :
    ∀ (fields : List (String × α)) (d : List (String × β)) (k : String),
      k ∉ fields.map Prod.fst →
      mapRead (fields.foldl (fun d kv => mapStore d kv.1 (g kv.2)) d) k = mapRead d k := by
  intro fields
  induction fields with
  | nil => intro d k _; rfl
  | cons p fields ih =>
    intro d k hk
    simp only [List.map_cons, List.mem_cons, not_or] at hk
    simp only [List.foldl_cons]
    rw [ih (mapStore d p.1 (g p.2)) k hk.2]
    exact mapRead_mapStore_ne d p.1 k (g p.2) (Ne.symm hk.1)

theorem mapRead_foldStore_mem {α β : Type} (g : α → β) :
    ∀ (fields : List (String × α)) (d : List (String × β)) (k : String) (v : α),
      (fields.map Prod.fst).Nodup → (k, v) ∈ fields →
      mapRead (fields.foldl (fun d kv => mapStore d kv.1 (g kv.2)) d) k = some (g v) := by
  intro fields
  induction fields with
  | nil => intro _ _ _ _ hmem; cases hmem
  | cons p fields ih =>
    intro d k v hnd hmem
    simp only [List.map_cons, List.nodup_cons] at hnd
    rcases List.mem_cons.mp hmem with heq | hmem'
    · subst heq
      simp only [List.foldl_cons]
      rw [mapRead_foldStore_not_mem g fields (mapStore d k (g v)) k hnd.1]
      exact mapRead_mapStore_self d k (g v)
    · simp only [List.foldl_cons]
      exact ih (mapStore d p.1 (g p.2)) k v hnd.2 hmem'

/-- C10.  When the record's `Fields` map contains the reserved key `level` or
`message`, the data map serialised by `formatLogLine` carries the
caller-supplied field value (`Sum.inr`, a copied field) under that key, not
the string the formatter put there from the record's own level or message:
`maps.Copy` runs after the reserved keys are set and overwrites them. -/
theorem formatLogLine_fields_override {α : Type} (entry : Entry α) (k : String) (v : α)
    (hk : k = "level" ∨ k = "message")
    (hnd : (entry.fields.map Prod.fst).Nodup) (hv : (k, v) ∈ entry.fields) :
    mapRead (formatLogLineData entry) k = some (Sum.inr v) := by
  cases hk <;>
    exact mapRead_foldStore_mem Sum.inr entry.fields _ k v hnd hv

/-- C10, witness: an entry whose `Fields` contains `level ↦ 42` serialises
with the caller's value under `level`, not the record's severity string. -/
theorem formatLogLine_fields_override_witness :
    mapRead (formatLogLineData
      { level := Level.info, message := "m", fields := [("level", 42)] }) "level" =
      some (Sum.inr 42) :=
  formatLogLine_fields_override
    { level := Level.info, message := "m", fields := [("level", 42)] }
    "level" 42 (Or.inl rfl) (by decide) (by decide)

/-! ## Claim C3: labelsToKey is insertion-order independent -/

theorem eq_of_mem_of_nodup_keys :
    ∀ {l : List (String × String)}, (l.map Prod.fst).Nodup →
      ∀ {p q : String × String}, p ∈ l → q ∈ l → p.1 = q.1 → p = q := by
  intro l
  induction l with
  | nil => intro _ p q hp; cases hp
  | cons x l ih =>
    intro hnd p q hp hq hkey
    simp only [List.map_cons, List.nodup_cons] at hnd
    rcases List.mem_cons.mp hp with rfl | hp' <;>
      rcases List.mem_cons.mp hq with rfl | hq'
    · rfl
    · exact absurd (hkey ▸ List.mem_map_of_mem Prod.fst hq') hnd.1
    · exact absurd (hkey ▸ List.mem_map_of_mem Prod.fst hp') hnd.1
    · exact ih hnd.2 hp' hq' hkey

theorem find?_key_perm {l1 l2 : List (String × String)} (hperm : l1.Perm l2)
    (hnd : (l1.map Prod.fst).Nodup) (k : String) :
    l1.find? (fun p => p.1 == k) = l2.find? (fun p => p.1 == k) := by
  cases h1 : l1.find? (fun p => p.1 == k) with
  | none =>
    have hall := List.find?_eq_none.mp h1
    exact (List.find?_eq_none.mpr (fun x hx => hall x (hperm.mem_iff.mpr hx))).symm
  | some p =>
    have hp1 : p ∈ l1 := List.mem_of_find?_eq_some h1
    have hpk : p.1 = k := by simpa using List.find?_some h1
    cases h2 : l2.find? (fun p => p.1 == k) with
    | none =>
      have hall := List.find?_eq_none.mp h2
      exact absurd (by simpa using hall p (hperm.mem_iff.mp hp1)) (by simp [hpk])
    | some q =>
      have hq1 : q ∈ l1 := hperm.mem_iff.mpr (List.mem_of_find?_eq_some h2)
      have hqk : q.1 = k := by simpa using List.find?_some h2
      exact congrArg some (eq_of_mem_of_nodup_keys hnd hp1 hq1 (hpk.trans hqk.symm))

theorem lookupLabel_perm {l1 l2 : List (String × String)} (hperm : l1.Perm l2)
    (hnd : (l1.map Prod.fst).Nodup) (k : String) :
    lookupLabel l1 k = lookupLabel l2 k := by
  rw [lookupLabel, lookupLabel, find?_key_perm hperm hnd k]

theorem encodeSorted_congr {l1 l2 : List (String × String)}
    (h : ∀ k, lookupLabel l1 k = lookupLabel l2 k) :
    ∀ ks : List String, encodeSorted l1 ks = encodeSorted l2 ks := by
  intro ks
  induction ks with
  | nil => rfl
  | cons k ks ih => rw [encodeSorted, encodeSorted, h k, ih]

/-- C3.  Two label maps with exactly the same key/value pairs (any insertion
order) produce byte-identical stream keys, and the empty label map produces
the empty string. -/
theorem labelsToKey_order_independent (l1 l2 : List (String × String))
    (hperm : l1.Perm l2) (hnd : (l1.map Prod.fst).Nodup) :
    labelsToKey l1 = labelsToKey l2 ∧ labelsToKey ([] : List (String × String)) = "" := by
  refine ⟨?_, rfl⟩
  by_cases hnil : l1 = []
  · subst hnil
    rw [hperm.symm.eq_nil]
  · have hlen1 : ¬ (l1.length = 0) := by simpa using hnil
    have hlen2 : ¬ (l2.length = 0) := by rw [← hperm.length_eq]; exact hlen1
    rw [labelsToKey, labelsToKey, if_neg hlen1, if_neg hlen2]
    have hkeys :
        List.insertionSort (fun a b => strLeB a b = true) (l1.map Prod.fst) =
        List.insertionSort (fun a b => strLeB a b = true) (l2.map Prod.fst) := by
      refine List.eq_of_perm_of_sorted ?_
        (List.sorted_insertionSort _ _) (List.sorted_insertionSort _ _)
      exact ((List.perm_insertionSort _ _).trans (hperm.map Prod.fst)).trans
        (List.perm_insertionSort _ _).symm
    show encodeSorted l1 (List.insertionSort (fun a b => strLeB a b = true)
        (l1.map Prod.fst)) =
      encodeSorted l2 (List.insertionSort (fun a b => strLeB a b = true)
        (l2.map Prod.fst))
    rw [hkeys]
    exact encodeSorted_congr (lookupLabel_perm hperm hnd) _

/-- C3, witness: the same two pairs in either insertion order give the same
key, and the empty map gives the empty string. -/
theorem labelsToKey_order_independent_witness :
    labelsToKey [("b", "2"), ("a", "1")] = labelsToKey [("a", "1"), ("b", "2")] ∧
    labelsToKey ([] : List (String × String)) = "" :=
  labelsToKey_order_independent [("b", "2"), ("a", "1")] [("a", "1"), ("b", "2")]
    (by decide) (by decide)

/-! ## Claim C2: injectivity of labelsToKey -/

theorem encodeSorted_data (l : List (String × String)) :
    ∀ ks : List String,
      (encodeSorted l ks).data = encodeList (ks.map (fun k => (k, lookupLabel l k))) := by
  intro ks
  induction ks with
  | nil => rfl
  | cons k ks ih =>
    rw [encodeSorted, List.map_cons, encodeList, ← ih, encodePair]
    simp [String.data_append]

theorem labelsToKey_data (l : List (String × String)) :
    (labelsToKey l).data = encodeList (sortedPairs l) := by
  by_cases h : l.length = 0
  · have hl : l = [] := List.length_eq_zero.mp h
    subst hl
    rfl
  · rw [labelsToKey, if_neg h]
    exact encodeSorted_data l _

theorem append_marker_inj (c : Char) :
    ∀ (a b x y : List Char), c ∉ a → c ∉ b → a ++ c :: x = b ++ c :: y →
      a = b ∧ x = y := by
  intro a
  induction a with
  | nil =>
    intro b x y _ hcb h
    cases b with
    | nil => exact ⟨rfl, by simpa using h⟩
    | cons d b' =>
      simp only [List.nil_append, List.cons_append, List.cons.injEq] at h
      exact absurd (h.1 ▸ List.mem_cons_self d b') hcb
  | cons a0 a' ih =>
    intro b x y hca hcb h
    cases b with
    | nil =>
      simp only [List.cons_append, List.nil_append, List.cons.injEq] at h
      exact absurd (h.1 ▸ List.mem_cons_self a0 a') hca
    | cons b0 b' =>
      simp only [List.cons_append, List.cons.injEq] at h
      obtain ⟨rfl, h'⟩ := h
      have hca' : c ∉ a' := fun hc => hca (List.mem_cons_of_mem a0 hc)
      have hcb' : c ∉ b' := fun hc => hcb (List.mem_cons_of_mem a0 hc)
      obtain ⟨rfl, rfl⟩ := ih b' x y hca' hcb' h'
      exact ⟨rfl, rfl⟩

theorem encodeList_inj :
    ∀ (l1 l2 : List (String × String)),
      (∀ p ∈ l1, cleanPair p) → (∀ p ∈ l2, cleanPair p) →
      encodeList l1 = encodeList l2 → l1 = l2 := by
  intro l1
  induction l1 with
  | nil =>
    intro l2 _ _ h
    cases l2 with
    | nil => rfl
    | cons q l2 => simp [encodeList, encodePair] at h
  | cons p l1 ih =>
    intro l2 hc1 hc2 h
    cases l2 with
    | nil => simp [encodeList, encodePair] at h
    | cons q l2 =>
      have hshape : ∀ (r : String × String) (rest : List Char),
          encodePair r ++ rest = (r.1.data ++ '=' :: r.2.data) ++ ';' :: rest := by
        intro r rest
        simp [encodePair]
      rw [encodeList, encodeList, hshape p, hshape q] at h
      obtain ⟨hp1, hp2, hp3⟩ := hc1 p (List.mem_cons_self p l1)
      obtain ⟨hq1, hq2, hq3⟩ := hc2 q (List.mem_cons_self q l2)
      have hnp : ';' ∉ p.1.data ++ '=' :: p.2.data := by
        simp only [List.mem_append, List.mem_cons]
        rintro (hin | hin | hin)
        · exact hp1 hin
        · cases hin
        · exact hp3 hin
      have hnq : ';' ∉ q.1.data ++ '=' :: q.2.data := by
        simp only [List.mem_append, List.mem_cons]
        rintro (hin | hin | hin)
        · exact hq1 hin
        · cases hin
        · exact hq3 hin
      obtain ⟨hitem, hrest⟩ := append_marker_inj ';' _ _ _ _ hnp hnq h
      obtain ⟨hkey, hval⟩ :=
        append_marker_inj '=' p.1.data q.1.data p.2.data q.2.data hp2 hq2 hitem
      have hpq : p = q := by
        obtain ⟨pk, pv⟩ := p
        obtain ⟨qk, qv⟩ := q
        simp only at hkey hval
        exact Prod.ext (String.toList_inj.mp hkey) (String.toList_inj.mp hval)
      rw [hpq, ih l2 (fun r hr => hc1 r (List.mem_cons_of_mem p hr))
        (fun r hr => hc2 r (List.mem_cons_of_mem q hr)) hrest]

theorem lookupLabel_eq_of_mem {l : List (String × String)}
    (hnd : (l.map Prod.fst).Nodup) {k v : String} (hmem : (k, v) ∈ l) :
    lookupLabel l k = v := by
  rw [lookupLabel]
  cases hfind : l.find? (fun p => p.1 == k) with
  | none =>
    exact absurd (by simp : ((k, v).1 == k) = true)
      (List.find?_eq_none.mp hfind (k, v) hmem)
  | some q =>
    have hq : q = (k, v) := eq_of_mem_of_nodup_keys hnd
      (List.mem_of_find?_eq_some hfind) hmem (by simpa using List.find?_some hfind)
    rw [hq]
    rfl

theorem sortedPairs_mem (l : List (String × String))
    (hnd : (l.map Prod.fst).Nodup) (p : String × String) :
    p ∈ sortedPairs l ↔ p ∈ l := by
  constructor
  · intro hp
    obtain ⟨k, hk, rfl⟩ := List.mem_map.mp hp
    have hkeys : k ∈ l.map Prod.fst := (List.perm_insertionSort _ _).subset hk
    obtain ⟨q, hq, rfl⟩ := List.mem_map.mp hkeys
    have : lookupLabel l q.1 = q.2 := lookupLabel_eq_of_mem hnd (by simpa using hq)
    rw [this]
    exact hq
  · intro hp
    obtain ⟨k, v⟩ := p
    have hkeys : k ∈ l.map Prod.fst := List.mem_map_of_mem Prod.fst hp
    have hsort : k ∈ List.insertionSort (fun a b => strLeB a b = true)
        (l.map Prod.fst) := (List.perm_insertionSort _ _).mem_iff.mpr hkeys
    have hval : lookupLabel l k = v := lookupLabel_eq_of_mem hnd hp
    exact List.mem_map.mpr ⟨k, hsort, by rw [hval]⟩

/-- C2, counterexample.  The claim asserts injectivity of `labelsToKey` over
arbitrary label strings.  It fails: the separators are not escaped, so the
map a ↦ "b;c=d" and the map a ↦ "b", c ↦ "d" — different as sets of
key/value pairs — both produce the key `a=b;c=d;`. -/
theorem labelsToKey_collision :
    labelsToKey [("a", "b;c=d")] = labelsToKey [("a", "b"), ("c", "d")] ∧
    ("c", "d") ∈ [("a", "b"), ("c", "d")] ∧
    ("c", "d") ∉ ([("a", "b;c=d")] : List (String × String)) ∧
    (([("a", "b;c=d")] : List (String × String)).map Prod.fst).Nodup ∧
    (([("a", "b"), ("c", "d")] : List (String × String)).map Prod.fst).Nodup :=
  ⟨rfl, by decide, by decide, by decide, by decide⟩

/-- C2, amended.  For label maps whose keys contain neither `=` nor `;` and
whose values contain no `;`, `labelsToKey` is injective: equal keys force the
same set of key/value pairs.  (Unrestricted injectivity is refuted by
`labelsToKey_collision`.) -/
theorem labelsToKey_injective_separator_free (l1 l2 : List (String × String))
    (hnd1 : (l1.map Prod.fst).Nodup) (hnd2 : (l2.map Prod.fst).Nodup)
    (hc1 : ∀ p ∈ l1, cleanPair p) (hc2 : ∀ p ∈ l2, cleanPair p)
    (h : labelsToKey l1 = labelsToKey l2) :
    ∀ p, p ∈ l1 ↔ p ∈ l2 := by
  have hdata : encodeList (sortedPairs l1) = encodeList (sortedPairs l2) := by
    rw [← labelsToKey_data, ← labelsToKey_data, h]
  have heq : sortedPairs l1 = sortedPairs l2 :=
    encodeList_inj _ _
      (fun p hp => hc1 p ((sortedPairs_mem l1 hnd1 p).mp hp))
      (fun p hp => hc2 p ((sortedPairs_mem l2 hnd2 p).mp hp)) hdata
  intro p
  rw [← sortedPairs_mem l1 hnd1, ← sortedPairs_mem l2 hnd2, heq]

/-- C2, witness: two separator-free maps with the same pairs in swapped order
have equal keys, and the injectivity theorem applies to them. -/
theorem labelsToKey_injective_separator_free_witness :
    (("a", "1") ∈ ([("a", "1"), ("b", "2")] : List (String × String))) ↔
    (("a", "1") ∈ ([("b", "2"), ("a", "1")] : List (String × String))) :=
  labelsToKey_injective_separator_free [("a", "1"), ("b", "2")] [("b", "2"), ("a", "1")]
    (by decide) (by decide) (by decide) (by decide) rfl ("a", "1")

end LokiLogger
